import Mathlib

/-!
Shallow embedding of the LRU cache in `eviction.go` and proofs of the
specified properties.  The Go code keeps a hash map from keys to linked
list elements together with a `container/list` recency list; every public
operation runs under one exclusive mutex, so each lock-protected body is
modelled as a pure state transformer on the record below.
-/

namespace GoCache

/-- An entry of the recency list, mirroring `cacheItem` in eviction.go
(`key string; val interface{}`).  The payload type is a parameter `V`;
Go's untyped `nil` returned on a miss is modelled as `none : Option V`
at the `Get` boundary. -/
structure cacheItem (V : Type) where
  key : String
  val : V
deriving Repr, DecidableEq

/-- State of the cache, mirroring the `Cache` struct of eviction.go.
`max_size` and `curr_size` are the Go `int` fields, taken as mathematical
integers: each operation changes `curr_size` by at most one and keeps it
between 0 and `max (max_size, 1)`, so 64-bit wraparound is never
exercised and no reduction modulo 2^64 is needed.  `cache` is the key set
of the Go map `map[string]*list.Element`; the element a key maps to is,
under the representation invariant `Inv`, the unique entry of `lru`
carrying that key.  `lru` is the doubly linked list with the head of the
Lean list as its front (most recently used) and the last element as its
back (least recently used).  The mutex is not modelled. -/
structure Cache (V : Type) where
  max_size : Int
  curr_size : Int
  cache : List String
  lru : List (cacheItem V)
deriving Repr, DecidableEq

variable {V : Type}

/-- NewCache (eviction.go lines 24-31): a fresh empty cache.  No
validation whatsoever is performed on `size`. -/
def NewCache (V : Type) (size : Int) : Cache V :=
  { max_size := size, curr_size := 0, cache := [], lru := [] }

/-- The keys on the recency list, front (most recently used) first. -/
def lruKeys (c : Cache V) : List String := c.lru.map cacheItem.key

/-- removeElement (eviction.go lines 81-86): unlink the element from the
list, delete its key from the map, decrement the size.  The element is
identified by its key: under `Inv` the keys on the list are distinct, so
erasing the first entry with that key is exactly Go's pointer-identity
`l.Remove(e)`. -/
def removeElement (c : Cache V) (e : cacheItem V) : Cache V :=
  { c with
    lru := c.lru.eraseP (fun it => it.key == e.key)
    cache := c.cache.erase e.key
    curr_size := c.curr_size - 1 }

/-- removeLRU (eviction.go lines 69-78): a guarded no-op when
`curr_size == 0`; otherwise remove the back element when the list is
nonempty (`Back()` returns `nil` on an empty list, and Go then skips the
removal). -/
def removeLRU (c : Cache V) : Cache V :=
  if c.curr_size = 0 then c
  else
    match c.lru.getLast? with
    | some e => removeElement c e
    | none => c

/-- Set (eviction.go lines 34-54).  Present key: `MoveToFront` of the
element the map yields, then overwrite its `val` in place — modelled as
erasing the unique entry with that key and consing it back at the front
with the new value.  New key: evict via `removeLRU` when
`curr_size >= max_size`, then push the new item at the front, insert the
key into the map, and increment the size.  The inner `none` branch (key
in the map but on no list node) is unreachable from any state satisfying
`Inv`; Go's `MoveToFront` on a removed element leaves the list unchanged,
which the branch mirrors. -/
def Set (c : Cache V) (key : String) (value : V) : Cache V :=
  if c.cache.contains key then
    match c.lru.find? (fun it => it.key == key) with
    | some it =>
        { c with lru := { it with val := value } :: c.lru.eraseP (fun jt => jt.key == key) }
    | none => c
  else
    let c1 := if c.max_size ≤ c.curr_size then removeLRU c else c
    { c1 with
      lru := ⟨key, value⟩ :: c1.lru
      cache := key :: c1.cache
      curr_size := c1.curr_size + 1 }

/-- Get (eviction.go lines 57-66): on a hit, move the entry to the front
and return `(value, true)`; on a miss return `(nil, false)` with the
state untouched.  As in `Set`, the inner `none` branch is unreachable
under `Inv`. -/
def Get (c : Cache V) (key : String) : (Option V × Bool) × Cache V :=
  if c.cache.contains key then
    match c.lru.find? (fun it => it.key == key) with
    | some it =>
        ((some it.val, true),
         { c with lru := it :: c.lru.eraseP (fun jt => jt.key == key) })
    | none => ((none, true), c)
  else ((none, false), c)

/-- Len (eviction.go lines 89-93): returns `curr_size`; reads under the
lock and mutates nothing. -/
def Len (c : Cache V) : Int := c.curr_size

/-- Clear (eviction.go lines 96-103): size reset to zero, fresh empty
map, list reinitialised to empty.  `max_size` is kept. -/
def Clear (c : Cache V) : Cache V :=
  { c with curr_size := 0, cache := [], lru := [] }

/-- Representation invariant tying the three data fields together: the
keys on the recency list are distinct (each key has at most one live
entry), the key set of the map is the key set of the list (a permutation
of duplicate-free lists, hence equality of finite key sets with equal
cardinalities), and the stored size is the length of the list. -/
def Inv (c : Cache V) : Prop :=
  (lruKeys c).Nodup ∧ c.cache.Perm (lruKeys c) ∧ c.curr_size = (c.lru.length : Int)

/-- One public call, for stating properties of call sequences. -/
inductive Op (V : Type) where
  | set (k : String) (v : V)
  | get (k : String)
  | len
  | clear

/-- The state after one public call (the values returned by `Get` and
`Len` do not affect the state). -/
def applyOp (c : Cache V) : Op V → Cache V
  | .set k v => Set c k v
  | .get k => (Get c k).2
  | .len => c
  | .clear => Clear c

/-- The state after a sequence of public calls, first call first. -/
def run (c : Cache V) : List (Op V) → Cache V
  | [] => c
  | op :: ops => run (applyOp c op) ops

/-- The state after a sequence of `Set` calls only. -/
def runSets (c : Cache V) : List (String × V) → Cache V
  | [] => c
  | (k, v) :: rest => runSets (Set c k v) rest

/-- The state after `n` repeated `Get` calls on one key. -/
def getN (c : Cache V) (k : String) : Nat → Cache V
  | 0 => c
  | n + 1 => getN (Get c k).2 k n

/-- A concrete full capacity-2 state for witnesses: b most recent, a
least recent (the state Go reaches after Set("a",1); Set("b",2)). -/
def demo : Cache Int :=
  { max_size := 2, curr_size := 2, cache := ["b", "a"], lru := [⟨"b", 2⟩, ⟨"a", 1⟩] }

/-- A concrete full capacity-2 state with the opposite recency order: a
most recent, b least recent. -/
def demo2 : Cache Int :=
  { max_size := 2, curr_size := 2, cache := ["a", "b"], lru := [⟨"a", 1⟩, ⟨"b", 2⟩] }

instance (c : Cache V) : Decidable (Inv c) := by
  unfold Inv
  exact inferInstance

/-! Basic facts about the representation. -/

theorem Inv.nodup {c : Cache V} (h : Inv c) : (lruKeys c).Nodup := h.1

theorem Inv.perm {c : Cache V} (h : Inv c) : c.cache.Perm (lruKeys c) := h.2.1

theorem Inv.size_eq {c : Cache V} (h : Inv c) : c.curr_size = (c.lru.length : Int) := h.2.2

theorem mem_lruKeys_of_contains {c : Cache V} {k : String} (hInv : Inv c)
    (h : c.cache.contains k = true) : k ∈ lruKeys c :=
  hInv.perm.mem_iff.1 (by simpa using h)

theorem not_mem_lruKeys_of_contains_false {c : Cache V} {k : String} (hInv : Inv c)
    (h : c.cache.contains k = false) : k ∉ lruKeys c :=
  fun hmem => (by simpa using h : k ∉ c.cache) (hInv.perm.mem_iff.2 hmem)

theorem lruKeys_eraseP (l : List (cacheItem V)) (k : String) :
    (l.eraseP (fun it => it.key == k)).map cacheItem.key = (l.map cacheItem.key).erase k := by
  rw [List.erase_eq_eraseP', List.eraseP_map]
  rfl

theorem key_of_find?_eq_some {l : List (cacheItem V)} {k : String} {it : cacheItem V}
    (h : l.find? (fun jt => jt.key == k) = some it) : it.key = k := by
  have h2 := List.find?_some h
  simpa using h2

theorem find?_of_mem_keys {l : List (cacheItem V)} {k : String} (h : k ∈ l.map cacheItem.key) :
    ∃ it, l.find? (fun jt => jt.key == k) = some it := by
  have hs : (l.find? (fun jt => jt.key == k)).isSome := by
    rw [List.find?_isSome]
    obtain ⟨x, hx, rfl⟩ := List.mem_map.1 h
    exact ⟨x, hx, by simp⟩
  exact Option.isSome_iff_exists.1 hs

/-! Effect of the internal removal helpers on the representation. -/

theorem removeElement_max {c : Cache V} (e : cacheItem V) :
    (removeElement c e).max_size = c.max_size := rfl

theorem lruKeys_removeElement (c : Cache V) (e : cacheItem V) :
    lruKeys (removeElement c e) = (lruKeys c).erase e.key := by
  simpa [removeElement, lruKeys] using lruKeys_eraseP c.lru e.key

theorem Inv_removeElement {c : Cache V} {e : cacheItem V} (hInv : Inv c)
    (he : e ∈ c.lru) : Inv (removeElement c e) := by
  have hkey : e.key ∈ lruKeys c := List.mem_map_of_mem _ he
  have hkeys := lruKeys_removeElement c e
  have hlen1 : ((lruKeys c).erase e.key).length + 1 = (lruKeys c).length :=
    List.length_erase_add_one hkey
  refine ⟨?_, ?_, ?_⟩
  · rw [hkeys]; exact hInv.nodup.erase e.key
  · rw [hkeys]
    exact hInv.perm.erase e.key
  · show c.curr_size - 1 = ((c.lru.eraseP (fun it => it.key == e.key)).length : Int)
    have h2 : (c.lru.eraseP (fun it => it.key == e.key)).length
        = ((lruKeys c).erase e.key).length := by
      have := congrArg List.length (lruKeys_eraseP c.lru e.key)
      simpa [lruKeys] using this
    have h3 : (lruKeys c).length = c.lru.length := by simp [lruKeys]
    have h4 := hInv.size_eq
    rw [h2]
    omega

theorem removeLRU_eq_self {c : Cache V} (h : c.curr_size = 0) : removeLRU c = c := by
  simp [removeLRU, h]

theorem removeLRU_max (c : Cache V) : (removeLRU c).max_size = c.max_size := by
  unfold removeLRU
  split
  · rfl
  · split
    · rfl
    · rfl

theorem getLast?_eq_some_of_size {c : Cache V} (hInv : Inv c) (h : c.curr_size ≠ 0) :
    ∃ e, c.lru.getLast? = some e := by
  have hne : c.lru ≠ [] := by
    intro hnil
    have := hInv.size_eq
    rw [hnil] at this
    simp at this
    exact h this
  exact Option.isSome_iff_exists.1 (List.getLast?_isSome.2 hne)

theorem Inv_removeLRU {c : Cache V} (hInv : Inv c) : Inv (removeLRU c) := by
  unfold removeLRU
  split
  · exact hInv
  · next h =>
    obtain ⟨e, he⟩ := getLast?_eq_some_of_size hInv h
    rw [he]
    exact Inv_removeElement hInv (List.mem_of_getLast?_eq_some he)

theorem removeLRU_size {c : Cache V} (hInv : Inv c) :
    (removeLRU c).curr_size = if c.curr_size = 0 then c.curr_size else c.curr_size - 1 := by
  unfold removeLRU
  split
  · next h => simp [h]
  · next h =>
    obtain ⟨e, he⟩ := getLast?_eq_some_of_size hInv h
    rw [he]
    simp [removeElement, h]

/-! Case equations for the public operations. -/

theorem Set_present {c : Cache V} {k : String} (v : V) {it : cacheItem V}
    (hc : c.cache.contains k = true)
    (hf : c.lru.find? (fun jt => jt.key == k) = some it) :
    Set c k v = { c with lru := { it with val := v } :: c.lru.eraseP (fun jt => jt.key == k) } := by
  unfold Set
  split
  · rw [hf]
  · next h => exact absurd hc h

theorem Set_new {c : Cache V} {k : String} (v : V) (hc : c.cache.contains k = false) :
    Set c k v =
      { lru := ⟨k, v⟩ :: (if c.max_size ≤ c.curr_size then removeLRU c else c).lru
        cache := k :: (if c.max_size ≤ c.curr_size then removeLRU c else c).cache
        curr_size := (if c.max_size ≤ c.curr_size then removeLRU c else c).curr_size + 1
        max_size := (if c.max_size ≤ c.curr_size then removeLRU c else c).max_size } := by
  unfold Set
  split
  · next h => rw [hc] at h; exact absurd h (by decide)
  · rfl

theorem Get_hit {c : Cache V} {k : String} {it : cacheItem V}
    (hc : c.cache.contains k = true)
    (hf : c.lru.find? (fun jt => jt.key == k) = some it) :
    Get c k = ((some it.val, true), { c with lru := it :: c.lru.eraseP (fun jt => jt.key == k) }) := by
  unfold Get
  split
  · rw [hf]
  · next h => exact absurd hc h

theorem Get_miss {c : Cache V} {k : String} (hc : c.cache.contains k = false) :
    Get c k = ((none, false), c) := by
  unfold Get
  split
  · next h => rw [hc] at h; exact absurd h (by decide)
  · rfl

/-! Preservation of the representation invariant. -/

theorem Inv_cons_eraseP {c : Cache V} {k : String} {x : cacheItem V} (hInv : Inv c)
    (hx : x.key = k) (hmem : k ∈ lruKeys c) :
    Inv { c with lru := x :: c.lru.eraseP (fun jt => jt.key == k) } := by
  have hkeys : lruKeys { c with lru := x :: c.lru.eraseP (fun jt => jt.key == k) }
      = k :: (lruKeys c).erase k := by
    show x.key :: (c.lru.eraseP (fun jt => jt.key == k)).map cacheItem.key
        = k :: (lruKeys c).erase k
    rw [hx, lruKeys_eraseP]
    rfl
  refine ⟨?_, ?_, ?_⟩
  · rw [hkeys, List.nodup_cons]
    refine ⟨fun hm => ?_, hInv.nodup.erase k⟩
    exact (hInv.nodup.mem_erase_iff.1 hm).1 rfl
  · rw [hkeys]
    exact hInv.perm.trans (List.perm_cons_erase hmem)
  · show c.curr_size = ((x :: c.lru.eraseP (fun jt => jt.key == k)).length : Int)
    have h3 := List.length_erase_add_one hmem
    have h2 : (c.lru.eraseP (fun jt => jt.key == k)).length = ((lruKeys c).erase k).length := by
      have := congrArg List.length (lruKeys_eraseP c.lru k)
      simpa [lruKeys] using this
    have h4 := hInv.size_eq
    have h5 : (lruKeys c).length = c.lru.length := by simp [lruKeys]
    simp only [List.length_cons, h2]
    push_cast
    omega

theorem Inv_insert_front {c : Cache V} {k : String} {v : V} (hInv : Inv c)
    (hk : k ∉ lruKeys c) :
    Inv { c with lru := ⟨k, v⟩ :: c.lru, cache := k :: c.cache,
                 curr_size := c.curr_size + 1 } := by
  refine ⟨?_, ?_, ?_⟩
  · show (k :: lruKeys c).Nodup
    rw [List.nodup_cons]
    exact ⟨hk, hInv.nodup⟩
  · show (k :: c.cache).Perm (k :: lruKeys c)
    exact hInv.perm.cons k
  · show c.curr_size + 1 = (((⟨k, v⟩ : cacheItem V) :: c.lru).length : Int)
    have h := hInv.size_eq
    simp only [List.length_cons]
    push_cast
    omega

theorem lruKeys_removeLRU_subset (c : Cache V) : lruKeys (removeLRU c) ⊆ lruKeys c := by
  unfold removeLRU
  split
  · exact fun x hx => hx
  · split
    · next e he =>
      rw [lruKeys_removeElement]
      exact List.erase_subset e.key (lruKeys c)
    · exact fun x hx => hx

theorem Inv_Set {c : Cache V} (k : String) (v : V) (hInv : Inv c) : Inv (Set c k v) := by
  cases hc : c.cache.contains k
  · rw [Set_new v hc]
    by_cases hle : c.max_size ≤ c.curr_size
    · simp only [if_pos hle]
      refine Inv_insert_front (Inv_removeLRU hInv) ?_
      intro hm
      exact not_mem_lruKeys_of_contains_false hInv hc (lruKeys_removeLRU_subset c hm)
    · simp only [if_neg hle]
      exact Inv_insert_front hInv (not_mem_lruKeys_of_contains_false hInv hc)
  · obtain ⟨it, hf⟩ := find?_of_mem_keys (mem_lruKeys_of_contains hInv hc)
    have hkk : it.key = k := key_of_find?_eq_some hf
    rw [Set_present v hc hf]
    exact Inv_cons_eraseP hInv hkk (mem_lruKeys_of_contains hInv hc)

theorem Inv_Get {c : Cache V} (k : String) (hInv : Inv c) : Inv (Get c k).2 := by
  cases hc : c.cache.contains k
  · rw [Get_miss hc]
    exact hInv
  · obtain ⟨it, hf⟩ := find?_of_mem_keys (mem_lruKeys_of_contains hInv hc)
    rw [Get_hit hc hf]
    exact Inv_cons_eraseP hInv (key_of_find?_eq_some hf) (mem_lruKeys_of_contains hInv hc)

theorem Inv_Clear (c : Cache V) : Inv (Clear c) :=
  ⟨List.nodup_nil, List.Perm.nil, by simp [Clear]⟩

theorem Inv_NewCache (V : Type) (n : Int) : Inv (NewCache V n) :=
  ⟨List.nodup_nil, List.Perm.nil, by simp [NewCache]⟩

theorem Inv_applyOp {c : Cache V} (op : Op V) (hInv : Inv c) : Inv (applyOp c op) := by
  cases op with
  | set k v => exact Inv_Set k v hInv
  | get k => exact Inv_Get k hInv
  | len => exact hInv
  | clear => exact Inv_Clear c

theorem Inv_run {c : Cache V} (ops : List (Op V)) (hInv : Inv c) : Inv (run c ops) := by
  induction ops generalizing c with
  | nil => exact hInv
  | cons op ops ih => exact ih (Inv_applyOp op hInv)

/-! Effect of the operations on the two integer fields. -/

theorem Set_max (c : Cache V) (k : String) (v : V) : (Set c k v).max_size = c.max_size := by
  unfold Set
  split
  · split <;> rfl
  · show (if c.max_size ≤ c.curr_size then removeLRU c else c).max_size = c.max_size
    split
    · exact removeLRU_max c
    · rfl

theorem Get_max (c : Cache V) (k : String) : ((Get c k).2).max_size = c.max_size := by
  unfold Get
  split
  · split <;> rfl
  · rfl

theorem Get_size (c : Cache V) (k : String) : ((Get c k).2).curr_size = c.curr_size := by
  unfold Get
  split
  · split <;> rfl
  · rfl

theorem Set_size_present {c : Cache V} {k : String} (v : V) (hc : c.cache.contains k = true)
    (hInv : Inv c) : (Set c k v).curr_size = c.curr_size := by
  obtain ⟨it, hf⟩ := find?_of_mem_keys (mem_lruKeys_of_contains hInv hc)
  rw [Set_present v hc hf]

theorem Set_size_new {c : Cache V} {k : String} (v : V) (hc : c.cache.contains k = false) :
    (Set c k v).curr_size
      = (if c.max_size ≤ c.curr_size then removeLRU c else c).curr_size + 1 := by
  rw [Set_new v hc]

theorem size_nonneg {c : Cache V} (hInv : Inv c) : 0 ≤ c.curr_size := by
  rw [hInv.size_eq]
  omega

theorem Set_size_le {c : Cache V} (k : String) (v : V) (hInv : Inv c)
    (hcap : 1 ≤ c.max_size) (hle : c.curr_size ≤ c.max_size) :
    (Set c k v).curr_size ≤ c.max_size := by
  cases hc : c.cache.contains k
  · rw [Set_size_new v hc]
    by_cases h2 : c.max_size ≤ c.curr_size
    · rw [if_pos h2, removeLRU_size hInv, if_neg (by omega)]
      omega
    · rw [if_neg h2]
      omega
  · rw [Set_size_present v hc hInv]
    exact hle

theorem Set_size_le_one {c : Cache V} (k : String) (v : V) (hInv : Inv c)
    (hcap : c.max_size ≤ 0) (hle : c.curr_size ≤ 1) :
    (Set c k v).curr_size ≤ 1 := by
  cases hc : c.cache.contains k
  · rw [Set_size_new v hc]
    have h0 : 0 ≤ c.curr_size := size_nonneg hInv
    rw [if_pos (by omega), removeLRU_size hInv]
    by_cases hz : c.curr_size = 0
    · rw [if_pos hz]
      omega
    · rw [if_neg hz]
      omega
  · rw [Set_size_present v hc hInv]
    exact hle

theorem applyOp_max (c : Cache V) (op : Op V) : (applyOp c op).max_size = c.max_size := by
  cases op with
  | set k v => exact Set_max c k v
  | get k => exact Get_max c k
  | len => rfl
  | clear => rfl

theorem applyOp_size_le_one {c : Cache V} (op : Op V) (hInv : Inv c)
    (hcap : c.max_size ≤ 0) (hle : c.curr_size ≤ 1) : (applyOp c op).curr_size ≤ 1 := by
  cases op with
  | set k v => exact Set_size_le_one k v hInv hcap hle
  | get k =>
    show ((Get c k).2).curr_size ≤ 1
    rw [Get_size]
    exact hle
  | len => exact hle
  | clear =>
    show (0 : Int) ≤ 1
    omega

theorem run_size_le_one {c : Cache V} (ops : List (Op V)) (hInv : Inv c)
    (hcap : c.max_size ≤ 0) (hle : c.curr_size ≤ 1) : (run c ops).curr_size ≤ 1 := by
  induction ops generalizing c with
  | nil => exact hle
  | cons op ops ih =>
    show (run (applyOp c op) ops).curr_size ≤ 1
    exact ih (Inv_applyOp op hInv) (by rw [applyOp_max]; exact hcap)
      (applyOp_size_le_one op hInv hcap hle)

theorem runSets_size_le {c : Cache V} (ops : List (String × V)) (hInv : Inv c)
    (hcap : 1 ≤ c.max_size) (hle : c.curr_size ≤ c.max_size) :
    (runSets c ops).curr_size ≤ c.max_size := by
  induction ops generalizing c with
  | nil => exact hle
  | cons p ops ih =>
    obtain ⟨k, v⟩ := p
    show (runSets (Set c k v) ops).curr_size ≤ c.max_size
    have h2 := Set_max c k v
    have h := ih (Inv_Set k v hInv) (by rw [h2]; exact hcap)
      (by rw [h2]; exact Set_size_le k v hInv hcap hle)
    rw [h2] at h
    exact h

/-! The back-of-order element: under distinct keys, erasing the entry
that carries the last element's key removes exactly the last element. -/

theorem eraseP_getLast_of_nodupKeys (l : List (cacheItem V)) :
    ∀ e : cacheItem V, l.getLast? = some e → (l.map cacheItem.key).Nodup →
      l.eraseP (fun it => it.key == e.key) = l.dropLast := by
  induction l with
  | nil =>
    intro e he _
    simp at he
  | cons x xs ih =>
    intro e he hnd
    cases xs with
    | nil =>
      simp only [List.getLast?_singleton, Option.some.injEq] at he
      subst he
      simp
    | cons y ys =>
      rw [List.getLast?_cons_cons] at he
      have hnd2 : (x.key :: (y :: ys).map cacheItem.key).Nodup := by
        simpa only [List.map_cons] using hnd
      obtain ⟨hxnot, hnd3⟩ := List.nodup_cons.1 hnd2
      have hmem : e ∈ y :: ys := List.mem_of_getLast?_eq_some he
      have hkeymem : e.key ∈ (y :: ys).map cacheItem.key := List.mem_map_of_mem _ hmem
      have hfalse : (x.key == e.key) = false := by
        rw [beq_eq_false_iff_ne]
        intro hxe
        exact hxnot (by rw [hxe]; exact hkeymem)
      rw [List.eraseP_cons]
      simp only [hfalse, cond_false]
      rw [ih e he hnd3, List.dropLast_cons₂]

theorem Set_new_at_cap {c : Cache V} {k : String} (v : V) (hInv : Inv c)
    (hc : c.cache.contains k = false) (hcap : 1 ≤ c.max_size)
    (heq : c.curr_size = c.max_size) :
    (Set c k v).lru = ⟨k, v⟩ :: c.lru.dropLast ∧ (Set c k v).curr_size = c.curr_size := by
  have hle : c.max_size ≤ c.curr_size := le_of_eq heq.symm
  have hnz : c.curr_size ≠ 0 := by omega
  obtain ⟨e, he⟩ := getLast?_eq_some_of_size hInv hnz
  have hrm : removeLRU c = removeElement c e := by
    unfold removeLRU
    rw [if_neg hnz, he]
  rw [Set_new v hc]
  constructor
  · show (⟨k, v⟩ : cacheItem V)
        :: (if c.max_size ≤ c.curr_size then removeLRU c else c).lru
        = ⟨k, v⟩ :: c.lru.dropLast
    rw [if_pos hle, hrm]
    show (⟨k, v⟩ : cacheItem V) :: c.lru.eraseP (fun it => it.key == e.key)
        = ⟨k, v⟩ :: c.lru.dropLast
    rw [eraseP_getLast_of_nodupKeys c.lru e he hInv.nodup]
  · show (if c.max_size ≤ c.curr_size then removeLRU c else c).curr_size + 1 = c.curr_size
    rw [if_pos hle, hrm]
    show c.curr_size - 1 + 1 = c.curr_size
    omega

/-! The claimed properties. -/

/-- C1, counterexample: capacity 0 is a value NewCache accepts, and a
single Set already makes Len() = 1 > 0, so "for every capacity passed to
NewCache and every sequence of Set calls, Len() <= capacity" is false as
stated. -/
theorem claim1_counterexample :
    ¬ (Len (runSets (NewCache Int 0) [("a", 1)]) ≤ 0) := by decide

/-- C1, amended: for every positive capacity and every sequence of Set
calls on a fresh cache, Len() <= capacity holds; since every state along
the sequence is itself `runSets` of a prefix, the bound holds after each
individual operation. -/
theorem claim1_theorem {V : Type} (n : Int) (ops : List (String × V)) (hn : 1 ≤ n) :
    Len (runSets (NewCache V n) ops) ≤ n :=
  runSets_size_le (c := NewCache V n) ops (Inv_NewCache V n) hn
    (by show (0 : Int) ≤ n; omega)

/-- C1, witness: the amended bound at capacity 2 over a concrete four-Set
sequence. -/
theorem claim1_witness :
    Len (runSets (NewCache Int 2) [("a", 1), ("b", 2), ("c", 3), ("a", 4)]) ≤ 2 :=
  claim1_theorem 2 [("a", 1), ("b", 2), ("c", 3), ("a", 4)] (by decide)

/-- C2, counterexample: NewCache(0) is accepted, a Set on it stores the
entry — retrievable via Get, so the cache is not disabled — and Len()
becomes 1 > 0: the code silently lets size exceed the bound instead of
rejecting or disabling, refuting the claimed policy. -/
theorem claim2_counterexample :
    Len (Set (NewCache Int 0) "a" 1) = 1 ∧
    ¬ (Len (Set (NewCache Int 0) "a" 1) ≤ (NewCache Int 0).max_size) ∧
    (Get (Set (NewCache Int 0) "a" 1) "a").1 = (some 1, true) := by decide

/-- C2, amended: NewCache applies no policy to a non-positive capacity:
construction succeeds unvalidated, the cache is not disabled (a Set on a
fresh such cache stores its entry, observable via Get, and Len() reaches
1, silently exceeding the bound), no operation panics (every operation
is a total function of the state), and the size never exceeds 1. -/
theorem claim2_theorem {V : Type} (n : Int) (k : String) (v : V) (ops : List (Op V))
    (hn : n ≤ 0) :
    (NewCache V n).max_size = n ∧
    Len (Set (NewCache V n) k v) = 1 ∧
    (Get (Set (NewCache V n) k v) k).1 = (some v, true) ∧
    0 ≤ (run (NewCache V n) ops).curr_size ∧
    (run (NewCache V n) ops).curr_size ≤ 1 := by
  have hset : Set (NewCache V n) k v
      = { max_size := n, curr_size := 1, cache := [k], lru := [⟨k, v⟩] } := by
    rw [Set_new v (show (NewCache V n).cache.contains k = false from rfl),
      if_pos (show (NewCache V n).max_size ≤ (NewCache V n).curr_size from hn),
      removeLRU_eq_self (show (NewCache V n).curr_size = 0 from rfl)]
    rfl
  refine ⟨rfl, ?_, ?_, ?_, ?_⟩
  · rw [hset]
    rfl
  · have hc2 : ({ max_size := n, curr_size := 1, cache := [k], lru := [⟨k, v⟩] } : Cache V).cache.contains k = true := by simp
    have hf2 : ({ max_size := n, curr_size := 1, cache := [k], lru := [⟨k, v⟩] } : Cache V).lru.find? (fun jt => jt.key == k) = some ⟨k, v⟩ :=
      List.find?_cons_of_pos _ (by simp)
    rw [hset, Get_hit hc2 hf2]
  · exact size_nonneg (Inv_run ops (Inv_NewCache V n))
  · exact run_size_le_one ops (Inv_NewCache V n) hn (by show (0 : Int) ≤ 1; decide)

/-- C2, witness: the amended behaviour at capacity 0 with one stored
entry and a concrete operation sequence. -/
theorem claim2_witness :
    (NewCache Int 0).max_size = 0 ∧
    Len (Set (NewCache Int 0) "a" 5) = 1 ∧
    (Get (Set (NewCache Int 0) "a" 5) "a").1 = (some 5, true) ∧
    0 ≤ (run (NewCache Int 0) [Op.set "a" 5, Op.get "a", Op.set "b" 6]).curr_size ∧
    (run (NewCache Int 0) [Op.set "a" 5, Op.get "a", Op.set "b" 6]).curr_size ≤ 1 :=
  claim2_theorem 0 "a" 5 [Op.set "a" 5, Op.get "a", Op.set "b" 6] (by decide)

/-- C3, counterexample: the fresh capacity-0 cache has size == capacity
(0 == 0) and "a" absent, yet Set("a",1) evicts nothing and the size grows
from 0 to 1 instead of staying unchanged, refuting the claim at this
state. -/
theorem claim3_counterexample :
    (NewCache Int 0).curr_size = (NewCache Int 0).max_size ∧
    (NewCache Int 0).cache.contains "a" = false ∧
    (Set (NewCache Int 0) "a" 1).lru = [⟨"a", 1⟩] ∧
    (Set (NewCache Int 0) "a" 1).curr_size = (NewCache Int 0).curr_size + 1 := by decide

/-- C3, amended: on a cache satisfying the representation invariant with
capacity at least 1 and size at most the capacity, Set on an absent key
behaves as claimed: at capacity exactly the back-of-order (least
recently used) entry is evicted — never more — and the size is
unchanged; below capacity nothing is evicted and the size grows by one;
in both cases the new entry sits at the front of the order. -/
theorem claim3_theorem {V : Type} {c : Cache V} {k : String} (v : V) (hInv : Inv c)
    (hk : c.cache.contains k = false) (hcap : 1 ≤ c.max_size)
    (hle : c.curr_size ≤ c.max_size) :
    (Set c k v).lru
      = ⟨k, v⟩ :: (if c.curr_size = c.max_size then c.lru.dropLast else c.lru) ∧
    (Set c k v).curr_size
      = (if c.curr_size = c.max_size then c.curr_size else c.curr_size + 1) := by
  by_cases heq : c.curr_size = c.max_size
  · rw [if_pos heq, if_pos heq]
    exact Set_new_at_cap v hInv hk hcap heq
  · have hlt : ¬ (c.max_size ≤ c.curr_size) := by omega
    rw [if_neg heq, if_neg heq, Set_new v hk]
    constructor
    · show (⟨k, v⟩ : cacheItem V)
          :: (if c.max_size ≤ c.curr_size then removeLRU c else c).lru
          = ⟨k, v⟩ :: c.lru
      rw [if_neg hlt]
    · show (if c.max_size ≤ c.curr_size then removeLRU c else c).curr_size + 1
          = c.curr_size + 1
      rw [if_neg hlt]

/-- C3, witness: the full capacity-2 cache `demo` (b front, a back); Set
of the new key c evicts exactly a, the new entry is at the front, and
the size stays 2. -/
theorem claim3_witness :
    (Set demo "c" 3).lru = [⟨"c", 3⟩, ⟨"b", 2⟩] ∧ (Set demo "c" 3).curr_size = 2 := by
  have h := claim3_theorem (c := demo) (k := "c") (3 : Int)
    (by decide) (by decide) (by decide) (by decide)
  exact ⟨by rw [h.1]; rfl, by rw [h.2]; rfl⟩

/-- C4: a Set on a present key overwrites the value, moves the entry to
the front of the recency order, evicts nothing (the key multiset of the
order is a permutation of the old one and the index is untouched), and
leaves Len() unchanged; a subsequent Get returns the new value. -/
theorem claim4_theorem {V : Type} {c : Cache V} {k : String} (v : V) (hInv : Inv c)
    (hk : c.cache.contains k = true) :
    (Set c k v).lru.head? = some ⟨k, v⟩ ∧
    ((Set c k v).lru.map cacheItem.key).Perm (c.lru.map cacheItem.key) ∧
    (Set c k v).cache = c.cache ∧
    Len (Set c k v) = Len c ∧
    (Get (Set c k v) k).1 = (some v, true) := by
  have hmem : k ∈ lruKeys c := mem_lruKeys_of_contains hInv hk
  obtain ⟨it, hf⟩ := find?_of_mem_keys hmem
  have hkk : it.key = k := key_of_find?_eq_some hf
  have hkeys : (Set c k v).lru.map cacheItem.key
      = k :: (c.lru.map cacheItem.key).erase k := by
    rw [Set_present v hk hf]
    show it.key :: (c.lru.eraseP (fun jt => jt.key == k)).map cacheItem.key
        = k :: (c.lru.map cacheItem.key).erase k
    rw [lruKeys_eraseP, hkk]
  refine ⟨?_, ?_, ?_, ?_, ?_⟩
  · rw [Set_present v hk hf]
    show some (⟨it.key, v⟩ : cacheItem V) = some ⟨k, v⟩
    rw [hkk]
  · rw [hkeys]
    exact (List.perm_cons_erase hmem).symm
  · rw [Set_present v hk hf]
  · rw [Set_present v hk hf]
    rfl
  · have hc2 : (Set c k v).cache.contains k = true := by
      rw [Set_present v hk hf]
      exact hk
    have hf2 : (Set c k v).lru.find? (fun jt => jt.key == k)
        = some { it with val := v } := by
      rw [Set_present v hk hf]
      exact List.find?_cons_of_pos _ (by simp [hkk])
    rw [Get_hit hc2 hf2]

/-- C4, witness: re-setting the present key a in the full capacity-2
cache `demo` keeps the index and Len() unchanged, fronts a with the new
value, and a Get then returns it. -/
theorem claim4_witness :
    (Set demo "a" 7).lru.head? = some ⟨"a", 7⟩ ∧
    ((Set demo "a" 7).lru.map cacheItem.key).Perm (demo.lru.map cacheItem.key) ∧
    (Set demo "a" 7).cache = demo.cache ∧
    Len (Set demo "a" 7) = Len demo ∧
    (Get (Set demo "a" 7) "a").1 = (some 7, true) :=
  claim4_theorem (c := demo) (k := "a") 7 (by decide) (by decide)

/-- C5: Get on a present key returns the entry's current value paired
with true and moves exactly that entry to the front of the recency
order; Get on an absent key returns (nil, false) — modelled (none,
false) — with the state unchanged. -/
theorem claim5_theorem {V : Type} {c : Cache V} (k : String) (hInv : Inv c) :
    (c.cache.contains k = true →
      ∃ it, c.lru.find? (fun jt => jt.key == k) = some it ∧ it.key = k ∧
        Get c k = ((some it.val, true),
          { c with lru := it :: c.lru.eraseP (fun jt => jt.key == k) })) ∧
    (c.cache.contains k = false → Get c k = ((none, false), c)) := by
  constructor
  · intro hc
    obtain ⟨it, hf⟩ := find?_of_mem_keys (mem_lruKeys_of_contains hInv hc)
    exact ⟨it, hf, key_of_find?_eq_some hf, Get_hit hc hf⟩
  · intro hc
    exact Get_miss hc

/-- C5, witness: the Get contract instantiated on the concrete state
`demo2`, where the queried key b is present at the back of the order. -/
theorem claim5_witness :
    (demo2.cache.contains "b" = true →
      ∃ it, demo2.lru.find? (fun jt => jt.key == "b") = some it ∧ it.key = "b" ∧
        Get demo2 "b" = ((some it.val, true),
          { demo2 with lru := it :: demo2.lru.eraseP (fun jt => jt.key == "b") })) ∧
    (demo2.cache.contains "b" = false → Get demo2 "b" = ((none, false), demo2)) :=
  claim5_theorem (c := demo2) "b" (by decide)

/-- C6: any number of repeated Gets on an absent key leave the whole
state — index, recency order and Len() — exactly unchanged, and each
such Get returns (none, false). -/
theorem claim6_theorem {V : Type} {c : Cache V} {k : String} (n : Nat)
    (hk : c.cache.contains k = false) :
    getN c k n = c ∧ (Get c k).1 = (none, false) := by
  constructor
  · induction n with
    | zero => rfl
    | succ m ih =>
      show getN (Get c k).2 k m = c
      rw [Get_miss hk]
      exact ih
  · rw [Get_miss hk]

/-- C6, witness: five repeated misses on the absent key z leave the
concrete two-entry cache `demo` untouched. -/
theorem claim6_witness :
    getN demo "z" 5 = demo ∧ (Get demo "z").1 = (none, false) :=
  claim6_theorem (c := demo) (k := "z") 5 (by decide)

/-- C7: Clear resets fully: Len() is 0, the index and the recency order
are both emptied, and a Get on any key — in particular every previously
set one — returns found = false. -/
theorem claim7_theorem {V : Type} (c : Cache V) (k : String) :
    Len (Clear c) = 0 ∧ (Clear c).cache = [] ∧ (Clear c).lru = [] ∧
    (Get (Clear c) k).1 = (none, false) := by
  refine ⟨rfl, rfl, rfl, ?_⟩
  rw [Get_miss (show (Clear c).cache.contains k = false from rfl)]

/-- C8: on a fresh capacity-2 cache, Set(a,1); Set(b,2); Get(a);
Set(c,3) evicts b — not a, whose recency the Get refreshed: afterwards b
misses while a and c hit with their values. -/
theorem claim8_theorem :
    (Get (Set ((Get (Set (Set (NewCache Int 2) "a" 1) "b" 2) "a").2) "c" 3) "b").1
      = (none, false) ∧
    (Get (Set ((Get (Set (Set (NewCache Int 2) "a" 1) "b" 2) "a").2) "c" 3) "a").1
      = (some 1, true) ∧
    (Get (Set ((Get (Set (Set (NewCache Int 2) "a" 1) "b" 2) "a").2) "c" 3) "c").1
      = (some 3, true) := by decide

/-- C9: every public operation — Set, Get, Len (which leaves the state
alone), Clear — preserves the index/order bijection: afterwards a key is
in the map iff it is on the recency list, both structures are
duplicate-free, they have the same number of entries, and that count is
the stored size; the packaged representation invariant is preserved. -/
theorem claim9_theorem {V : Type} (c : Cache V) (op : Op V) (s : String) (hInv : Inv c) :
    (s ∈ (applyOp c op).cache ↔ s ∈ lruKeys (applyOp c op)) ∧
    (applyOp c op).cache.Nodup ∧
    (lruKeys (applyOp c op)).Nodup ∧
    (applyOp c op).cache.length = (applyOp c op).lru.length ∧
    (applyOp c op).curr_size = ((applyOp c op).lru.length : Int) ∧
    Inv (applyOp c op) := by
  have h := Inv_applyOp op hInv
  refine ⟨h.perm.mem_iff, ?_, h.nodup, ?_, h.size_eq, h⟩
  · exact (h.perm.nodup_iff).2 h.nodup
  · have h2 := h.perm.length_eq
    simpa [lruKeys] using h2

/-- C9, witness: the bijection facts after a new-key Set on the concrete
full capacity-2 cache `demo`, checked for the evicted key a. -/
theorem claim9_witness :
    ("a" ∈ (applyOp demo (Op.set "c" 3)).cache ↔
      "a" ∈ lruKeys (applyOp demo (Op.set "c" 3))) ∧
    (applyOp demo (Op.set "c" 3)).cache.Nodup ∧
    (lruKeys (applyOp demo (Op.set "c" 3))).Nodup ∧
    (applyOp demo (Op.set "c" 3)).cache.length = (applyOp demo (Op.set "c" 3)).lru.length ∧
    (applyOp demo (Op.set "c" 3)).curr_size
      = ((applyOp demo (Op.set "c" 3)).lru.length : Int) ∧
    Inv (applyOp demo (Op.set "c" 3)) :=
  claim9_theorem demo (Op.set "c" 3) "a" (by decide)

/-- C10: every sequence of public calls is total (the transformers below
are total functions); from a fresh cache of any capacity the size stays
non-negative; for a non-positive capacity it never exceeds one — each
new-key Set first evicts the sole existing entry — and eviction on an
empty cache is a guarded no-op. -/
theorem claim10_theorem {V : Type} (n m : Int) (ops ops2 : List (Op V)) (c : Cache V)
    (hm : m ≤ 0) (hc : c.curr_size = 0) :
    0 ≤ (run (NewCache V n) ops).curr_size ∧
    (run (NewCache V m) ops2).curr_size ≤ 1 ∧
    removeLRU c = c :=
  ⟨size_nonneg (Inv_run ops (Inv_NewCache V n)),
   run_size_le_one ops2 (Inv_NewCache V m) hm (by show (0 : Int) ≤ 1; decide),
   removeLRU_eq_self hc⟩

/-- C10, witness: non-negativity at capacity 3, the one-entry bound at
capacity -2, and the no-op eviction, all on concrete inputs. -/
theorem claim10_witness :
    0 ≤ (run (NewCache Int 3) [Op.set "a" 1, Op.clear, Op.get "a"]).curr_size ∧
    (run (NewCache Int (-2))
        [Op.set "a" 1, Op.set "b" 2, Op.get "b", Op.set "c" 3]).curr_size ≤ 1 ∧
    removeLRU (NewCache Int 9) = NewCache Int 9 :=
  claim10_theorem 3 (-2) [Op.set "a" 1, Op.clear, Op.get "a"]
    [Op.set "a" 1, Op.set "b" 2, Op.get "b", Op.set "c" 3]
    (NewCache Int 9) (by decide) (by decide)

end GoCache
